import Mathlib

/-!
Verification of the LP-MAB controller (exponential-weights bandit policy
driven over a socket loop), shallowly embedded from the Python source.
Machine floats are modelled as exact reals; numpy vectors of length
num_actions are modelled as functions from naturals to reals, read on
indices below num_actions.
-/

open Real

noncomputable section

/-- State of the LP_MAB policy: mirrors the attributes set in LP_MAB.__init__. -/
structure LP_MAB where
  num_actions : ℕ
  gamma : ℝ
  weights : ℕ → ℝ
  probabilities : ℕ → ℝ
  action_counts : ℕ → ℕ

namespace LP_MAB

/-- Embeds LP_MAB.__init__(num_actions, gamma): weights all 1, probabilities
all 1/num_actions, action counts all 0. -/
def init (A : ℕ) (g : ℝ) : LP_MAB :=
  { num_actions := A
    gamma := g
    weights := fun _ => 1
    probabilities := fun _ => 1 / (A : ℝ)
    action_counts := fun _ => 0 }

/-- First line of LP_MAB.update: the action count of the chosen arm is
incremented. -/
def next_counts (s : LP_MAB) (action : ℕ) : ℕ → ℕ :=
  Function.update s.action_counts action (s.action_counts action + 1)

/-- Second line of LP_MAB.update: the importance-weighted reward estimate,
reward divided by the current probability of the chosen arm (no clamping
appears in the source). -/
def estimated_reward (s : LP_MAB) (action : ℕ) (reward : ℝ) : ℝ :=
  reward / s.probabilities action

/-- Third line of LP_MAB.update: the chosen arm's weight is multiplied by
exp(gamma * estimated_reward / num_actions); all other weights are kept. -/
def next_weights (s : LP_MAB) (action : ℕ) (reward : ℝ) : ℕ → ℝ :=
  Function.update s.weights action
    (s.weights action * Real.exp (s.gamma * estimated_reward s action reward / (s.num_actions : ℝ)))

/-- Fourth line of LP_MAB.update: the recomputed probability vector before
renormalization, (1-gamma) * w_i / sum(w) + gamma / num_actions, where w is
the already-updated weight vector and the sum runs over all arms. -/
def preProb (s : LP_MAB) (action : ℕ) (reward : ℝ) : ℕ → ℝ :=
  fun i =>
    (1 - s.gamma) *
        (next_weights s action reward i /
          Finset.sum (Finset.range s.num_actions) (next_weights s action reward)) +
      s.gamma / (s.num_actions : ℝ)

/-- Embeds LP_MAB.update(action, reward): increments the action count,
multiplies the chosen arm's weight by the exponential factor, recomputes the
probability vector and divides it by its own sum (the renormalization
in the last line of the method). -/
def update (s : LP_MAB) (action : ℕ) (reward : ℝ) : LP_MAB :=
  { num_actions := s.num_actions
    gamma := s.gamma
    weights := next_weights s action reward
    probabilities := fun i =>
      preProb s action reward i /
        Finset.sum (Finset.range s.num_actions) (preProb s action reward)
    action_counts := next_counts s action }

/-- Inverse-CDF sampler: the index drawn by np.random.choice with probability
vector p when the underlying uniform draw is u — the least index whose
cumulative probability exceeds u. -/
def selectIdx : ℝ → List ℝ → ℕ
  | _, [] => 0
  | u, p :: ps => if u < p then 0 else selectIdx (u - p) ps + 1

/-- List of the probability entries of the state, in arm order. -/
def probList (s : LP_MAB) : List ℝ :=
  (List.range s.num_actions).map s.probabilities

/-- Embeds LP_MAB.select_action in state-passing style with the random draw
u made explicit: np.random.choice(num_actions, p=probabilities) is the
inverse-CDF sample of the probability vector at u. The method body reads
the state and assigns nothing, so the state component is returned as is. -/
def select_action (s : LP_MAB) (u : ℝ) : ℕ × LP_MAB :=
  (selectIdx u (probList s), s)

/-- Python-level indexing of a numpy vector of length A by a possibly
negative integer index, as performed by update on action_counts and
weights: an index a with 0 <= a < A is used directly, an index with
-A <= a < 0 addresses entry A + a, and anything else raises IndexError. -/
def npIndex (A : ℕ) (a : ℤ) : Option ℕ :=
  if 0 ≤ a ∧ a < (A : ℤ) then some a.toNat
  else if -(A : ℤ) ≤ a ∧ a < 0 then some (a + (A : ℤ)).toNat
  else none

/-- LP_MAB.update as called with an arbitrary integer action id: the very
first statement of the method indexes action_counts with the raw id, so an
id outside [-A, A) raises IndexError before any state is mutated, and an id
in [-A, 0) silently addresses arm A + id (numpy negative indexing). -/
def updateChecked (s : LP_MAB) (action : ℤ) (reward : ℝ) : Except Unit LP_MAB :=
  match npIndex s.num_actions action with
  | some i => Except.ok (update s i reward)
  | none => Except.error ()

/-- Clamped estimator following the spec's words ("guards against division by
zero by clamping probabilities[a] to a minimum floor, e.g. gamma/A"); written
only for comparison with estimated_reward, which is what the source computes
with no clamping. -/
def estimated_reward_clamped (s : LP_MAB) (action : ℕ) (reward : ℝ) : ℝ :=
  reward / max (s.probabilities action) (s.gamma / (s.num_actions : ℝ))

/-- One multiplicative weight assignment of the kind performed by the third
line of LP_MAB.update, with the factor abstracted out: weights[a] *= c, with
probabilities and counters untouched. Used to state exactly which part of
update commutes across distinct arms. -/
def mulWeight (s : LP_MAB) (a : ℕ) (c : ℝ) : LP_MAB :=
  { s with weights := Function.update s.weights a (s.weights a * c) }

/-- Policy state separating the source's unclamped estimator from the spec's
clamped one: two arms, gamma 1/2, probability 1/8 on arm 0, below the floor
gamma/A = 1/4. This state is not reachable from init. -/
def cexState : LP_MAB :=
  { num_actions := 2
    gamma := 1/2
    weights := fun _ => 1
    probabilities := fun i => if i = 0 then 1/8 else 7/8
    action_counts := fun _ => 0 }

end LP_MAB

/-- Sample malformed inbound message (no comma, not an integer literal).
Decoded message text is modelled as a list of characters. -/
def malformedMsg : List Char := ['a', 'b', 'c']

/-- One receive event on a session: either the transport delivered the given
decoded data (an empty list meaning the peer closed the connection), or the
receive call itself raised a transport error. -/
inductive RecvEvent where
  | msg (data : List Char) : RecvEvent
  | fail : RecvEvent
deriving DecidableEq

/-- Exceptions that can escape the body of handle_client_connection: a
ValueError from int() parsing, an IndexError from numpy indexing inside
update, or a transport error from recv or send. -/
inductive HandlerError where
  | valueError : HandlerError
  | indexError : HandlerError
  | connectionError : HandlerError
deriving DecidableEq

/-- Helper for splitComma: accumulates the current field in reverse. -/
def splitCommaAux : List Char → List Char → List (List Char)
  | [], acc => [acc.reverse]
  | c :: cs, acc =>
    if c = ',' then acc.reverse :: splitCommaAux cs []
    else splitCommaAux cs (c :: acc)

/-- Python's data.split(','): the comma-separated fields of the text; an
empty text yields one empty field, a trailing comma a trailing empty
field. -/
def splitComma (data : List Char) : List (List Char) :=
  splitCommaAux data []

/-- Helper for parseInt?: folds a run of decimal digits into a value,
rejecting any non-digit character. -/
def digitsVal? : List Char → ℕ → Option ℕ
  | [], acc => some acc
  | c :: cs, acc =>
    if c.isDigit then digitsVal? cs (acc * 10 + (c.toNat - 48))
    else none

/-- Python's int() on one field, on the forms the protocol can produce:
an optional leading minus sign followed by at least one decimal digit;
anything else raises ValueError (modelled as none). -/
def parseInt? : List Char → Option ℤ
  | [] => none
  | '-' :: rest =>
    match rest with
    | [] => none
    | _ => (digitsVal? rest 0).map fun n => -(n : ℤ)
  | cs => (digitsVal? cs 0).map fun n => (n : ℤ)

/-- Parsing of one inbound message as done by handle_client_connection: the
statement action, reward = map(int, data.split(',')) succeeds when the data
splits on commas into exactly two integer fields, and raises ValueError
otherwise (wrong field count or a non-integer field). -/
def parseMessage (data : List Char) : Option (ℤ × ℤ) :=
  match (splitComma data).map parseInt? with
  | [some a, some r] => some (a, r)
  | _ => none

/-- Embeds the loop of handle_client_connection as a function of the finite
trace of receive events of one session and the shared policy state. An empty
datum breaks the loop and the session ends with the state as the loop leaves
it; an unparsable datum raises ValueError and an out-of-range action raises
IndexError inside update, and no handler in the source catches either, so
they escape the loop; a transport failure raises ConnectionError. The
select_action and send calls of the loop body do not touch the policy state
(select_action is read-only), so the state evolves by the update calls
alone. An exhausted trace stands for a session still open: the state so far
is returned. -/
def handleClient : List RecvEvent → LP_MAB → Except HandlerError LP_MAB
  | [], s => Except.ok s
  | RecvEvent.fail :: _, _ => Except.error HandlerError.connectionError
  | RecvEvent.msg data :: rest, s =>
    if data = [] then Except.ok s
    else
      match parseMessage data with
      | none => Except.error HandlerError.valueError
      | some (a, r) =>
        match LP_MAB.updateChecked s a (r : ℝ) with
        | Except.error _ => Except.error HandlerError.indexError
        | Except.ok t => handleClient rest t

/-- Embeds the accept loop of main as a function of the finite list of
session traces: sessions are handled one after another against the single
shared LP_MAB instance, each starting from the state the previous session
left behind. An exception escaping handle_client_connection propagates out
of main and ends the whole server, so later sessions are never served. -/
def serverRun : List (List RecvEvent) → LP_MAB → Except HandlerError LP_MAB
  | [], s => Except.ok s
  | sess :: rest, s =>
    match handleClient sess s with
    | Except.error e => Except.error e
    | Except.ok t => serverRun rest t

/-- Reachable policy states: the state produced by LP_MAB.__init__ followed
by any finite sequence of update calls with in-range actions. -/
inductive Reachable (A : ℕ) (g : ℝ) : LP_MAB → Prop
  | base : Reachable A g (LP_MAB.init A g)
  | step (s : LP_MAB) (a : ℕ) (r : ℝ) (ha : a < A) (hs : Reachable A g s) :
      Reachable A g (LP_MAB.update s a r)

namespace LP_MAB

/-- Structural invariant carried by every reachable state: the dimensions are
those of the construction, all weights are positive, the probability vector
sums to 1 over the arms, and each entry is at least gamma / A. -/
def Inv (A : ℕ) (g : ℝ) (s : LP_MAB) : Prop :=
  s.num_actions = A ∧ s.gamma = g ∧
    (∀ i, 0 < s.weights i) ∧
    Finset.sum (Finset.range A) s.probabilities = 1 ∧
    ∀ i, g / (A : ℝ) ≤ s.probabilities i

lemma inv_init (A : ℕ) (g : ℝ) (hA : 0 < A) (hg0 : 0 ≤ g) (hg1 : g ≤ 1) :
    Inv A g (init A g) := by
  have hApos : (0 : ℝ) < (A : ℝ) := by exact_mod_cast hA
  refine ⟨rfl, rfl, fun i => one_pos, ?_, fun i => ?_⟩
  · simp [init, Finset.sum_const, Finset.card_range]
    field_simp
  · simp only [init]
    gcongr

lemma inv_update (A : ℕ) (g : ℝ) (s : LP_MAB) (a : ℕ) (r : ℝ)
    (hA : 0 < A) (hg0 : 0 ≤ g) (hg1 : g ≤ 1) (h : Inv A g s) :
    Inv A g (update s a r) := by
  obtain ⟨hdim, hgam, hw, hsum, hlow⟩ := h
  have hApos : (0 : ℝ) < (A : ℝ) := by exact_mod_cast hA
  -- positivity of the updated weights
  have hw' : ∀ i, 0 < next_weights s a r i := by
    intro i
    by_cases hia : i = a
    · subst hia
      simp only [next_weights, Function.update_same]
      exact mul_pos (hw i) (Real.exp_pos _)
    · simpa [next_weights, Function.update_noteq hia] using hw i
  -- the total updated weight is positive
  have htotW : 0 < Finset.sum (Finset.range A) (next_weights s a r) := by
    apply Finset.sum_pos (fun i _ => hw' i)
    exact ⟨0, Finset.mem_range.mpr hA⟩
  -- the recomputed probabilities sum to exactly one before renormalization
  have hpre : Finset.sum (Finset.range A) (preProb s a r) = 1 := by
    have hW : Finset.sum (Finset.range A)
        (fun i => next_weights s a r i /
          Finset.sum (Finset.range s.num_actions) (next_weights s a r)) = 1 := by
      rw [← Finset.sum_div, hdim, div_self (ne_of_gt htotW)]
    calc Finset.sum (Finset.range A) (preProb s a r)
        = (1 - s.gamma) * Finset.sum (Finset.range A)
            (fun i => next_weights s a r i /
              Finset.sum (Finset.range s.num_actions) (next_weights s a r)) +
          (A : ℝ) * (s.gamma / (s.num_actions : ℝ)) := by
          simp only [preProb]
          rw [Finset.sum_add_distrib, ← Finset.mul_sum, Finset.sum_const,
            Finset.card_range, nsmul_eq_mul]
      _ = 1 := by
          rw [hW, hdim, hgam]
          field_simp
  have hlow' : ∀ i, g / (A : ℝ) ≤ preProb s a r i := by
    intro i
    have h1 : 0 ≤ (1 - s.gamma) *
        (next_weights s a r i /
          Finset.sum (Finset.range s.num_actions) (next_weights s a r)) := by
      apply mul_nonneg
      · rw [hgam]; linarith
      · exact div_nonneg (le_of_lt (hw' i)) (by rw [hdim]; exact le_of_lt htotW)
    have h2 : s.gamma / (s.num_actions : ℝ) = g / (A : ℝ) := by rw [hgam, hdim]
    simp only [preProb]
    rw [h2] at *
    linarith
  refine ⟨hdim, hgam, hw', ?_, ?_⟩
  · -- after renormalization the sum is total/total = 1
    show Finset.sum (Finset.range A)
        (fun i => preProb s a r i /
          Finset.sum (Finset.range s.num_actions) (preProb s a r)) = 1
    rw [← Finset.sum_div, hdim, hpre, div_one]
  · intro i
    show g / (A : ℝ) ≤ preProb s a r i /
      Finset.sum (Finset.range s.num_actions) (preProb s a r)
    rw [hdim, hpre, div_one]
    exact hlow' i

lemma reachable_inv (A : ℕ) (g : ℝ) (s : LP_MAB)
    (hA : 0 < A) (hg0 : 0 ≤ g) (hg1 : g ≤ 1) (hs : Reachable A g s) :
    Inv A g s := by
  induction hs with
  | base => exact inv_init A g hA hg0 hg1
  | step s a r ha hs ih => exact inv_update A g s a r hA hg0 hg1 ih

lemma reachable_dims (A : ℕ) (g : ℝ) (s : LP_MAB) (hs : Reachable A g s) :
    s.num_actions = A ∧ s.gamma = g := by
  induction hs with
  | base => exact ⟨rfl, rfl⟩
  | step s a r ha hs ih => exact ih

lemma selectIdx_lt_length (l : List ℝ) (u : ℝ) (h0 : 0 ≤ u) (hlt : u < l.sum) :
    selectIdx u l < l.length := by
  induction l generalizing u with
  | nil =>
    simp only [List.sum_nil] at hlt
    linarith
  | cons p ps ih =>
    by_cases h : u < p
    · simp [selectIdx, h]
    · have hp : p ≤ u := not_lt.mp h
      have hrest : u - p < ps.sum := by
        simp only [List.sum_cons] at hlt
        linarith
      have := ih (u - p) (by linarith) hrest
      simp only [selectIdx, if_neg h, List.length_cons]
      omega

lemma list_range_map_sum (f : ℕ → ℝ) (n : ℕ) :
    ((List.range n).map f).sum = Finset.sum (Finset.range n) f := by
  induction n with
  | zero => simp
  | succ n ih =>
    rw [List.range_succ, List.map_append, List.sum_append, Finset.sum_range_succ, ih]
    simp

end LP_MAB

end

/-- C1: every reachable policy state (initialization followed by any finite
sequence of update calls with in-range actions, gamma in (0,1], at least
one arm) has probabilities summing to 1 and every entry at least gamma/A.
In the exact-real model the sum is exactly 1, which is within any floating
tolerance. -/
theorem c1_reachable_probabilities (A : ℕ) (g : ℝ) (s : LP_MAB)
    (hA : 0 < A) (hg0 : 0 < g) (hg1 : g ≤ 1) (hs : Reachable A g s) :
    Finset.sum (Finset.range A) s.probabilities = 1 ∧
      ∀ i, g / (A : ℝ) ≤ s.probabilities i := by
  obtain ⟨-, -, -, h4, h5⟩ := LP_MAB.reachable_inv A g s hA hg0.le hg1 hs
  exact ⟨h4, h5⟩

/-- Witness for C1 at the concrete reachable state reached from three arms,
gamma 1/2, by one update of arm 0 with reward 1. -/
theorem c1_reachable_probabilities_witness :
    Finset.sum (Finset.range 3)
        (LP_MAB.update (LP_MAB.init 3 (1/2)) 0 1).probabilities = 1 ∧
      ∀ i, (1/2 : ℝ) / (3 : ℝ) ≤
        (LP_MAB.update (LP_MAB.init 3 (1/2)) 0 1).probabilities i :=
  c1_reachable_probabilities 3 (1/2) _ (by norm_num) (by norm_num) (by norm_num)
    (Reachable.step _ 0 1 (by norm_num) Reachable.base)

/-- C3: one update call multiplies the selected arm's weight by
exp(gamma * estimated_reward / num_actions) and leaves every other arm's
weight unchanged. -/
theorem c3_update_frame (s : LP_MAB) (a : ℕ) (r : ℝ) (ha : a < s.num_actions) :
    (LP_MAB.update s a r).weights a =
        s.weights a *
          Real.exp (s.gamma * LP_MAB.estimated_reward s a r / (s.num_actions : ℝ)) ∧
      ∀ b, b ≠ a → (LP_MAB.update s a r).weights b = s.weights b := by
  constructor
  · simp [LP_MAB.update, LP_MAB.next_weights]
  · intro b hb
    simp [LP_MAB.update, LP_MAB.next_weights, Function.update_noteq hb]

/-- Witness for C3 at two arms, gamma 1/2, updating arm 0 with reward 1. -/
theorem c3_update_frame_witness :
    (LP_MAB.update (LP_MAB.init 2 (1/2)) 0 1).weights 0 =
        (LP_MAB.init 2 (1/2)).weights 0 *
          Real.exp ((LP_MAB.init 2 (1/2)).gamma *
            LP_MAB.estimated_reward (LP_MAB.init 2 (1/2)) 0 1 /
            ((LP_MAB.init 2 (1/2)).num_actions : ℝ)) ∧
      ∀ b, b ≠ 0 → (LP_MAB.update (LP_MAB.init 2 (1/2)) 0 1).weights b =
        (LP_MAB.init 2 (1/2)).weights b :=
  c3_update_frame (LP_MAB.init 2 (1/2)) 0 1 (by norm_num [LP_MAB.init])

/-- C6: with gamma equal to 1 the probability vector is uniform, equal to
1/A in every entry, on every reachable state, whatever actions and rewards
the updates carried. -/
theorem c6_gamma_one_uniform (A : ℕ) (s : LP_MAB) (hA : 0 < A)
    (hs : Reachable A 1 s) : ∀ i, s.probabilities i = 1 / (A : ℝ) := by
  have hAne : ((A : ℝ)) ≠ 0 := Nat.cast_ne_zero.mpr hA.ne'
  cases hs with
  | base => intro i; rfl
  | step s a r ha hs =>
    obtain ⟨hdim, hgam⟩ := LP_MAB.reachable_dims A 1 s hs
    have hpre : ∀ j, LP_MAB.preProb s a r j = 1 / (A : ℝ) := by
      intro j
      simp [LP_MAB.preProb, hgam, hdim]
    have htot : Finset.sum (Finset.range s.num_actions) (LP_MAB.preProb s a r) = 1 := by
      rw [hdim]
      rw [Finset.sum_congr rfl fun j _ => hpre j]
      rw [Finset.sum_const, Finset.card_range, nsmul_eq_mul]
      field_simp
    intro i
    show LP_MAB.preProb s a r i /
        Finset.sum (Finset.range s.num_actions) (LP_MAB.preProb s a r) = 1 / (A : ℝ)
    rw [htot, div_one, hpre i]

/-- Witness for C6 at three arms after one update of arm 0 with reward 7,
read off at each of the three entries. -/
theorem c6_gamma_one_uniform_witness :
    (LP_MAB.update (LP_MAB.init 3 1) 0 7).probabilities 0 = 1 / (3 : ℝ) ∧
      (LP_MAB.update (LP_MAB.init 3 1) 0 7).probabilities 1 = 1 / (3 : ℝ) ∧
      (LP_MAB.update (LP_MAB.init 3 1) 0 7).probabilities 2 = 1 / (3 : ℝ) := by
  have h := c6_gamma_one_uniform 3 _ (by norm_num)
    (Reachable.step _ 0 7 (by norm_num) Reachable.base)
  exact ⟨h 0, h 1, h 2⟩

/-- C10: select_action returns the policy state it was given, unchanged in
weights, probabilities and action counts, and on every reachable state with
the uniform draw u in [0,1) the returned arm index is below num_actions. -/
theorem c10_select_action_pure (A : ℕ) (g : ℝ) (s : LP_MAB) (u : ℝ)
    (hA : 0 < A) (hg0 : 0 < g) (hg1 : g ≤ 1) (hs : Reachable A g s)
    (hu0 : 0 ≤ u) (hu1 : u < 1) :
    (LP_MAB.select_action s u).2 = s ∧
      (LP_MAB.select_action s u).1 < s.num_actions := by
  refine ⟨rfl, ?_⟩
  obtain ⟨hdim, -, -, hsum, -⟩ := LP_MAB.reachable_inv A g s hA hg0.le hg1 hs
  have hsumList : (LP_MAB.probList s).sum = 1 := by
    rw [LP_MAB.probList, LP_MAB.list_range_map_sum, hdim, hsum]
  have hlen := LP_MAB.selectIdx_lt_length (LP_MAB.probList s) u hu0
    (by rw [hsumList]; exact hu1)
  simpa [LP_MAB.select_action, LP_MAB.probList] using hlen

/-- Witness for C10 at the initial three-arm state with draw 0. -/
theorem c10_select_action_pure_witness :
    (LP_MAB.select_action (LP_MAB.init 3 (1/2)) 0).2 = LP_MAB.init 3 (1/2) ∧
      (LP_MAB.select_action (LP_MAB.init 3 (1/2)) 0).1 <
        (LP_MAB.init 3 (1/2)).num_actions :=
  c10_select_action_pure 3 (1/2) _ 0 (by norm_num) (by norm_num) (by norm_num)
    Reachable.base (le_refl 0) (by norm_num)

lemma exp_half_sq : Real.exp (1/2 : ℝ) * Real.exp (1/2 : ℝ) = Real.exp 1 := by
  rw [← Real.exp_add]
  norm_num

lemma exp_half_gt : (1.6487 : ℝ) < Real.exp (1/2 : ℝ) := by
  nlinarith [exp_half_sq, Real.exp_one_gt_d9, Real.exp_pos (1/2 : ℝ)]

lemma exp_half_lt : Real.exp (1/2 : ℝ) < (1.6488 : ℝ) := by
  nlinarith [exp_half_sq, Real.exp_one_lt_d9, Real.exp_pos (1/2 : ℝ)]

lemma c2_w :
    LP_MAB.next_weights (LP_MAB.init 3 (1/2)) 0 1 0 = Real.exp (1/2) ∧
      LP_MAB.next_weights (LP_MAB.init 3 (1/2)) 0 1 1 = 1 ∧
      LP_MAB.next_weights (LP_MAB.init 3 (1/2)) 0 1 2 = 1 := by
  refine ⟨?_, ?_, ?_⟩
  · show (LP_MAB.init 3 (1/2)).weights 0 *
        Real.exp ((LP_MAB.init 3 (1/2)).gamma *
          LP_MAB.estimated_reward (LP_MAB.init 3 (1/2)) 0 1 /
          ((LP_MAB.init 3 (1/2)).num_actions : ℝ)) = Real.exp (1/2)
    norm_num [LP_MAB.init, LP_MAB.estimated_reward]
  · simp [LP_MAB.next_weights, LP_MAB.init]
  · simp [LP_MAB.next_weights, LP_MAB.init]

lemma c2_sumW :
    Finset.sum (Finset.range 3) (LP_MAB.next_weights (LP_MAB.init 3 (1/2)) 0 1) =
      Real.exp (1/2) + 2 := by
  rw [Finset.sum_range_succ, Finset.sum_range_succ, Finset.sum_range_one,
    c2_w.1, c2_w.2.1, c2_w.2.2]
  ring

lemma c2_tot :
    Finset.sum (Finset.range (LP_MAB.init 3 (1/2)).num_actions)
      (LP_MAB.preProb (LP_MAB.init 3 (1/2)) 0 1) = 1 := by
  have hden : (0 : ℝ) < Real.exp (1/2) + 2 := by positivity
  have hnum : (LP_MAB.init 3 (1/2)).num_actions = 3 := rfl
  have hgam : (LP_MAB.init 3 (1/2)).gamma = 1/2 := rfl
  simp only [LP_MAB.preProb, hnum, hgam, c2_sumW]
  rw [Finset.sum_range_succ, Finset.sum_range_succ, Finset.sum_range_one,
    c2_w.1, c2_w.2.1, c2_w.2.2]
  field_simp
  ring

lemma c2_prob (i : ℕ) :
    (LP_MAB.update (LP_MAB.init 3 (1/2)) 0 1).probabilities i =
      (1/2) * (LP_MAB.next_weights (LP_MAB.init 3 (1/2)) 0 1 i /
        (Real.exp (1/2) + 2)) + 1/6 := by
  have hnum : (LP_MAB.init 3 (1/2)).num_actions = 3 := rfl
  have hgam : (LP_MAB.init 3 (1/2)).gamma = 1/2 := rfl
  show LP_MAB.preProb (LP_MAB.init 3 (1/2)) 0 1 i /
      Finset.sum (Finset.range (LP_MAB.init 3 (1/2)).num_actions)
        (LP_MAB.preProb (LP_MAB.init 3 (1/2)) 0 1) = _
  rw [c2_tot, div_one]
  simp only [LP_MAB.preProb, hnum, hgam, c2_sumW]
  norm_num

/-- C2: the spec's numeric scenario. With three arms, gamma 1/2 and the
initial state, one update of arm 0 with reward 1 yields estimated reward 3,
weight vector (exp(1/2), 1, 1) with exp(1/2) within 0.001 of 1.6487, and
probabilities within 0.001 of (0.3925, 0.3037, 0.3037), summing exactly
to 1. -/
theorem c2_numeric_scenario :
    LP_MAB.estimated_reward (LP_MAB.init 3 (1/2)) 0 1 = 3 ∧
      (LP_MAB.update (LP_MAB.init 3 (1/2)) 0 1).weights 0 = Real.exp (1/2) ∧
      (LP_MAB.update (LP_MAB.init 3 (1/2)) 0 1).weights 1 = 1 ∧
      (LP_MAB.update (LP_MAB.init 3 (1/2)) 0 1).weights 2 = 1 ∧
      |(LP_MAB.update (LP_MAB.init 3 (1/2)) 0 1).weights 0 - 1.6487| < 0.001 ∧
      |(LP_MAB.update (LP_MAB.init 3 (1/2)) 0 1).probabilities 0 - 0.3925| < 0.001 ∧
      |(LP_MAB.update (LP_MAB.init 3 (1/2)) 0 1).probabilities 1 - 0.3037| < 0.001 ∧
      |(LP_MAB.update (LP_MAB.init 3 (1/2)) 0 1).probabilities 2 - 0.3037| < 0.001 ∧
      Finset.sum (Finset.range 3)
        (LP_MAB.update (LP_MAB.init 3 (1/2)) 0 1).probabilities = 1 := by
  have hden : (0 : ℝ) < Real.exp (1/2) + 2 := by positivity
  have he1 := exp_half_gt
  have he2 := exp_half_lt
  have hw0 : (LP_MAB.update (LP_MAB.init 3 (1/2)) 0 1).weights 0 = Real.exp (1/2) := c2_w.1
  have hd0 : Real.exp (1/2) / (Real.exp (1/2) + 2) < 0.4519 := by
    rw [div_lt_iff hden]
    nlinarith
  have hd0' : (0.4518 : ℝ) < Real.exp (1/2) / (Real.exp (1/2) + 2) := by
    rw [lt_div_iff hden]
    nlinarith
  have hd1 : (1 : ℝ) / (Real.exp (1/2) + 2) < 0.27408 := by
    rw [div_lt_iff hden]
    nlinarith
  have hd1' : (0.27406 : ℝ) < 1 / (Real.exp (1/2) + 2) := by
    rw [lt_div_iff hden]
    nlinarith
  refine ⟨?_, hw0, c2_w.2.1, c2_w.2.2, ?_, ?_, ?_, ?_, ?_⟩
  · norm_num [LP_MAB.estimated_reward, LP_MAB.init]
  · rw [hw0, abs_lt]
    constructor <;> nlinarith
  · rw [c2_prob 0, c2_w.1, abs_lt]
    constructor <;> nlinarith
  · rw [c2_prob 1, c2_w.2.1, abs_lt]
    constructor <;> nlinarith
  · rw [c2_prob 2, c2_w.2.2, abs_lt]
    constructor <;> nlinarith
  · rw [Finset.sum_range_succ, Finset.sum_range_succ, Finset.sum_range_one,
      c2_prob 0, c2_prob 1, c2_prob 2, c2_w.1, c2_w.2.1, c2_w.2.2]
    field_simp
    ring

/-- C4 counterexample: the source computes the estimate as reward divided by
the raw probability, with no clamping. At a two-arm state with gamma 1/2 and
probability 1/8 on arm 0 (below the floor gamma/A = 1/4), the source's
estimate for reward 1 is 8 while the spec's clamped computation gives 4, so
the estimate is not computed through a clamped probability. -/
theorem c4_counterexample :
    LP_MAB.estimated_reward LP_MAB.cexState 0 1 = 8 ∧
      LP_MAB.estimated_reward_clamped LP_MAB.cexState 0 1 = 4 ∧
      LP_MAB.estimated_reward LP_MAB.cexState 0 1 ≠
        LP_MAB.estimated_reward_clamped LP_MAB.cexState 0 1 := by
  have h1 : LP_MAB.estimated_reward LP_MAB.cexState 0 1 = 8 := by
    norm_num [LP_MAB.estimated_reward, LP_MAB.cexState]
  have h2 : LP_MAB.estimated_reward_clamped LP_MAB.cexState 0 1 = 4 := by
    rw [LP_MAB.estimated_reward_clamped]
    norm_num [LP_MAB.cexState, max_def]
  exact ⟨h1, h2, by rw [h1, h2]; norm_num⟩

/-- C4 amended: the estimate is reward / probabilities[a] with no clamping;
on every reachable state with gamma in (0,1] the probability of each arm is
at least gamma/A > 0, so the division is never by zero and the unclamped
estimate coincides with the spec's clamped one there. -/
theorem c4_amended (A : ℕ) (g : ℝ) (s : LP_MAB) (a : ℕ) (r : ℝ)
    (hA : 0 < A) (hg0 : 0 < g) (hg1 : g ≤ 1) (hs : Reachable A g s) :
    0 < s.probabilities a ∧
      LP_MAB.estimated_reward s a r = LP_MAB.estimated_reward_clamped s a r := by
  obtain ⟨hdim, hgam, -, -, hlow⟩ := LP_MAB.reachable_inv A g s hA hg0.le hg1 hs
  have hfloor : 0 < g / (A : ℝ) := div_pos hg0 (by exact_mod_cast hA)
  have hpa := hlow a
  refine ⟨lt_of_lt_of_le hfloor hpa, ?_⟩
  rw [LP_MAB.estimated_reward, LP_MAB.estimated_reward_clamped, hgam, hdim,
    max_eq_left hpa]

/-- Witness for the amended C4 at the initial two-arm state, arm 0, reward 1. -/
theorem c4_amended_witness :
    0 < (LP_MAB.init 2 (1/2)).probabilities 0 ∧
      LP_MAB.estimated_reward (LP_MAB.init 2 (1/2)) 0 1 =
        LP_MAB.estimated_reward_clamped (LP_MAB.init 2 (1/2)) 0 1 :=
  c4_amended 2 (1/2) _ 0 1 (by norm_num) (by norm_num) (by norm_num) Reachable.base

lemma two_arm_w01_0 :
    LP_MAB.next_weights (LP_MAB.init 2 (1/2)) 0 1 0 = Real.exp (1/2) := by
  rw [LP_MAB.next_weights, Function.update_same]
  norm_num [LP_MAB.init, LP_MAB.estimated_reward]

lemma two_arm_w01_1 :
    LP_MAB.next_weights (LP_MAB.init 2 (1/2)) 0 1 1 = 1 := by
  rw [LP_MAB.next_weights, Function.update_noteq one_ne_zero]
  rfl

lemma two_arm_w11_1 :
    LP_MAB.next_weights (LP_MAB.init 2 (1/2)) 1 1 1 = Real.exp (1/2) := by
  rw [LP_MAB.next_weights, Function.update_same]
  norm_num [LP_MAB.init, LP_MAB.estimated_reward]

lemma two_arm_w11_0 :
    LP_MAB.next_weights (LP_MAB.init 2 (1/2)) 1 1 0 = 1 := by
  rw [LP_MAB.next_weights, Function.update_noteq zero_ne_one]
  rfl

lemma c5_tot11 :
    Finset.sum (Finset.range (LP_MAB.init 2 (1/2)).num_actions)
      (LP_MAB.preProb (LP_MAB.init 2 (1/2)) 1 1) = 1 := by
  have hden : (0 : ℝ) < 1 + Real.exp (1/2) := by positivity
  have hnum : (LP_MAB.init 2 (1/2)).num_actions = 2 := rfl
  have hgam : (LP_MAB.init 2 (1/2)).gamma = 1/2 := rfl
  have hsumW : Finset.sum (Finset.range 2)
      (LP_MAB.next_weights (LP_MAB.init 2 (1/2)) 1 1) = 1 + Real.exp (1/2) := by
    rw [Finset.sum_range_succ, Finset.sum_range_one, two_arm_w11_0, two_arm_w11_1]
  simp only [LP_MAB.preProb, hnum, hgam, hsumW]
  rw [Finset.sum_range_succ, Finset.sum_range_one, two_arm_w11_0, two_arm_w11_1]
  field_simp
  ring

lemma c5_q :
    (LP_MAB.update (LP_MAB.init 2 (1/2)) 1 1).probabilities 0 =
      (1/2) * (1 / (1 + Real.exp (1/2))) + 1/4 := by
  have hnum : (LP_MAB.init 2 (1/2)).num_actions = 2 := rfl
  have hgam : (LP_MAB.init 2 (1/2)).gamma = 1/2 := rfl
  have hsumW : Finset.sum (Finset.range 2)
      (LP_MAB.next_weights (LP_MAB.init 2 (1/2)) 1 1) = 1 + Real.exp (1/2) := by
    rw [Finset.sum_range_succ, Finset.sum_range_one, two_arm_w11_0, two_arm_w11_1]
  show LP_MAB.preProb (LP_MAB.init 2 (1/2)) 1 1 0 /
      Finset.sum (Finset.range (LP_MAB.init 2 (1/2)).num_actions)
        (LP_MAB.preProb (LP_MAB.init 2 (1/2)) 1 1) = _
  rw [c5_tot11, div_one]
  simp only [LP_MAB.preProb, hnum, hgam, hsumW, two_arm_w11_0]
  norm_num

lemma c5_lhs :
    (LP_MAB.update (LP_MAB.update (LP_MAB.init 2 (1/2)) 0 1) 1 1).weights 0 =
      Real.exp (1/2) := by
  show LP_MAB.next_weights (LP_MAB.update (LP_MAB.init 2 (1/2)) 0 1) 1 1 0 = _
  rw [LP_MAB.next_weights, Function.update_noteq zero_ne_one]
  exact two_arm_w01_0

lemma c5_rhs :
    (LP_MAB.update (LP_MAB.update (LP_MAB.init 2 (1/2)) 1 1) 0 1).weights 0 =
      Real.exp ((1/2) * (1 / ((1/2) * (1 / (1 + Real.exp (1/2))) + 1/4)) / 2) := by
  show LP_MAB.next_weights (LP_MAB.update (LP_MAB.init 2 (1/2)) 1 1) 0 1 0 = _
  rw [LP_MAB.next_weights, Function.update_same]
  have hw : (LP_MAB.update (LP_MAB.init 2 (1/2)) 1 1).weights 0 = 1 := two_arm_w11_0
  have hg : (LP_MAB.update (LP_MAB.init 2 (1/2)) 1 1).gamma = 1/2 := rfl
  have hn : (LP_MAB.update (LP_MAB.init 2 (1/2)) 1 1).num_actions = 2 := rfl
  rw [LP_MAB.estimated_reward, hw, hg, hn, c5_q, one_mul]
  norm_num

/-- C5 counterexample: with two arms, gamma 1/2 and the initial state,
updating arm 0 with reward 1 and then arm 1 with reward 1 leaves arm 0 with
weight exp(1/2), while the reverse order leaves arm 0 with a strictly larger
weight, because the second update divides by a probability the first update
already changed. So the two orders produce different final weight vectors. -/
theorem c5_counterexample :
    (LP_MAB.update (LP_MAB.update (LP_MAB.init 2 (1/2)) 0 1) 1 1).weights 0 ≠
        (LP_MAB.update (LP_MAB.update (LP_MAB.init 2 (1/2)) 1 1) 0 1).weights 0 ∧
      (LP_MAB.update (LP_MAB.update (LP_MAB.init 2 (1/2)) 0 1) 1 1).weights ≠
        (LP_MAB.update (LP_MAB.update (LP_MAB.init 2 (1/2)) 1 1) 0 1).weights := by
  have he : (1 : ℝ) < Real.exp (1/2) := by nlinarith [exp_half_gt]
  have hden : (0 : ℝ) < 1 + Real.exp (1/2) := by positivity
  have hq1 : 1 / (1 + Real.exp (1/2)) < 1/2 := by
    rw [div_lt_iff₀ hden]
    nlinarith
  have hq0 : (0 : ℝ) < (1/2) * (1 / (1 + Real.exp (1/2))) + 1/4 := by positivity
  have hqlt : (1/2) * (1 / (1 + Real.exp (1/2))) + 1/4 < 1/2 := by nlinarith
  have hinv : (2 : ℝ) < 1 / ((1/2) * (1 / (1 + Real.exp (1/2))) + 1/4) := by
    rw [lt_div_iff₀ hq0]
    nlinarith
  have hz : (1 : ℝ)/2 <
      (1/2) * (1 / ((1/2) * (1 / (1 + Real.exp (1/2))) + 1/4)) / 2 := by
    nlinarith
  have hne : Real.exp (1/2 : ℝ) ≠
      Real.exp ((1/2) * (1 / ((1/2) * (1 / (1 + Real.exp (1/2))) + 1/4)) / 2) :=
    ne_of_lt (Real.exp_lt_exp.mpr hz)
  have h0 : (LP_MAB.update (LP_MAB.update (LP_MAB.init 2 (1/2)) 0 1) 1 1).weights 0 ≠
      (LP_MAB.update (LP_MAB.update (LP_MAB.init 2 (1/2)) 1 1) 0 1).weights 0 := by
    rw [c5_lhs, c5_rhs]
    exact hne
  exact ⟨h0, fun h => h0 (congrFun h 0)⟩

/-- C5 amended: the multiplicative weight assignments themselves commute
across distinct arms — applying weights[a] *= c and weights[b] *= d in
either order gives the same state — but full update calls do not, because
each update also recomputes the probability vector that the other update's
importance weight divides by. -/
theorem c5_amended (s : LP_MAB) (a b : ℕ) (c d : ℝ) (hab : a ≠ b) :
    LP_MAB.mulWeight (LP_MAB.mulWeight s a c) b d =
      LP_MAB.mulWeight (LP_MAB.mulWeight s b d) a c := by
  have hW : Function.update (Function.update s.weights a (s.weights a * c)) b
      (Function.update s.weights a (s.weights a * c) b * d) =
      Function.update (Function.update s.weights b (s.weights b * d)) a
      (Function.update s.weights b (s.weights b * d) a * c) := by
    rw [Function.update_noteq (Ne.symm hab), Function.update_noteq hab]
    exact Function.update_comm hab _ _ _
  simp only [LP_MAB.mulWeight]
  rw [hW]

/-- Witness for the amended C5 at arms 0 and 1 with factors 2 and 3. -/
theorem c5_amended_witness :
    LP_MAB.mulWeight (LP_MAB.mulWeight (LP_MAB.init 2 (1/2)) 0 2) 1 3 =
      LP_MAB.mulWeight (LP_MAB.mulWeight (LP_MAB.init 2 (1/2)) 1 3) 0 2 :=
  c5_amended (LP_MAB.init 2 (1/2)) 0 1 2 3 zero_ne_one

/-- C7 counterexample: calling update with the out-of-range action id -1 on
a fresh two-arm state is not rejected: numpy indexing interprets -1 as the
last arm, the call succeeds and mutates arm 1's weight (from 1 to exp(1/2)).
So an out-of-range negative id neither fails nor leaves the state
unchanged. -/
theorem c7_counterexample :
    LP_MAB.updateChecked (LP_MAB.init 2 (1/2)) (-1) 1 =
        Except.ok (LP_MAB.update (LP_MAB.init 2 (1/2)) 1 1) ∧
      (LP_MAB.update (LP_MAB.init 2 (1/2)) 1 1).weights 1 ≠
        (LP_MAB.init 2 (1/2)).weights 1 := by
  constructor
  · rfl
  · show LP_MAB.next_weights (LP_MAB.init 2 (1/2)) 1 1 1 ≠ _
    rw [two_arm_w11_1]
    show Real.exp (1/2) ≠ 1
    intro h
    nlinarith [exp_half_gt]

/-- C7 amended: an action id at or above num_actions, or below
-num_actions, raises IndexError on the first line of update, so the call
fails with the state unmutated; but an id in the range from -num_actions up
to -1 is not rejected — numpy indexing silently applies the update to arm
num_actions + id. -/
theorem c7_amended (s : LP_MAB) (a : ℤ) (r : ℝ) :
    (((s.num_actions : ℤ) ≤ a ∨ a < -(s.num_actions : ℤ)) →
        LP_MAB.updateChecked s a r = Except.error ()) ∧
      ((-(s.num_actions : ℤ) ≤ a ∧ a < 0) →
        LP_MAB.updateChecked s a r =
          Except.ok (LP_MAB.update s (a + (s.num_actions : ℤ)).toNat r)) := by
  constructor
  · intro h
    have h1 : ¬(0 ≤ a ∧ a < (s.num_actions : ℤ)) := by omega
    have h2 : ¬(-(s.num_actions : ℤ) ≤ a ∧ a < 0) := by omega
    unfold LP_MAB.updateChecked LP_MAB.npIndex
    rw [if_neg h1, if_neg h2]
  · intro h
    have h1 : ¬(0 ≤ a ∧ a < (s.num_actions : ℤ)) := by omega
    unfold LP_MAB.updateChecked LP_MAB.npIndex
    rw [if_neg h1, if_pos h]

/-- Witness for the amended C7: action id 5 on a two-arm state is rejected
with IndexError. -/
theorem c7_amended_witness :
    LP_MAB.updateChecked (LP_MAB.init 2 (1/2)) 5 1 = Except.error () :=
  (c7_amended (LP_MAB.init 2 (1/2)) 5 1).1 (Or.inl (by norm_num [LP_MAB.init]))

/-- C8 counterexample: a session that delivers the malformed message "abc"
followed by a graceful close does not continue with a neutral reward of 0 —
the int() parse raises ValueError, which no handler catches, and the
handling loop dies before ever seeing the close. -/
theorem c8_counterexample :
    handleClient [RecvEvent.msg malformedMsg, RecvEvent.msg []]
      (LP_MAB.init 10 (1/10)) = Except.error HandlerError.valueError := rfl

/-- C8 amended: an inbound message that is nonempty but does not parse as
two comma-separated integers makes the handling loop terminate with an
uncaught ValueError; no neutral reward is substituted and no update is
applied for that sample. -/
theorem c8_amended (evs : List RecvEvent) (s : LP_MAB) (data : List Char)
    (h1 : data ≠ []) (h2 : parseMessage data = none) :
    handleClient (RecvEvent.msg data :: evs) s =
      Except.error HandlerError.valueError := by
  simp only [handleClient, if_neg h1, h2]

/-- Witness for the amended C8 on the concrete message "abc". -/
theorem c8_amended_witness :
    handleClient [RecvEvent.msg malformedMsg] (LP_MAB.init 10 (1/10)) =
      Except.error HandlerError.valueError :=
  c8_amended [] (LP_MAB.init 10 (1/10)) malformedMsg (by decide) (by decide)

/-- C9 counterexample: when the first session's transport fails, the
uncaught exception propagates through handle_client_connection and out of
main's accept loop, so the whole server stops: the next session (here a
well-behaved one that closes immediately) is never accepted, and the run
does not end in the untouched shared state as the claim requires. -/
theorem c9_counterexample :
    serverRun [[RecvEvent.fail], [RecvEvent.msg []]] (LP_MAB.init 10 (1/10)) =
        Except.error HandlerError.connectionError ∧
      serverRun [[RecvEvent.fail], [RecvEvent.msg []]] (LP_MAB.init 10 (1/10)) ≠
        Except.ok (LP_MAB.init 10 (1/10)) := by
  have h1 : serverRun [[RecvEvent.fail], [RecvEvent.msg []]]
      (LP_MAB.init 10 (1/10)) = Except.error HandlerError.connectionError := rfl
  refine ⟨h1, ?_⟩
  rw [h1]
  intro h
  exact Except.noConfusion h

/-- C9 amended: on a graceful close (recv returning no data) the session
ends leaving the shared policy state exactly as it was, and the accept loop
reuses that same state for the remaining sessions; a transport failure,
however, terminates the entire server, not only the affected session. -/
theorem c9_amended (evs : List RecvEvent) (sessions : List (List RecvEvent))
    (s : LP_MAB) :
    handleClient (RecvEvent.msg [] :: evs) s = Except.ok s ∧
      serverRun ((RecvEvent.msg [] :: evs) :: sessions) s =
        serverRun sessions s := by
  have h1 : handleClient (RecvEvent.msg [] :: evs) s = Except.ok s := by
    simp [handleClient]
  refine ⟨h1, ?_⟩
  simp only [serverRun, h1]
